import Mathlib

set_option linter.unusedVariables false

/-!
Verification of the points-tracking voice-skill backend
(`alexa-points-skill/lambda/index.js`).

The JavaScript source is shallowly embedded: JS strings are `String`
(lists of characters), JS numbers arising from `parseInt` are `Int`,
JS objects used as dictionaries are modelled as functions with an
explicit `Option` for key presence where the code tests presence, and
a default of `0` for inner person buckets (the code only observes the
inner buckets through `|| 0` and a falsy guard before `+=`, so an
absent inner key and a stored `0` are observationally identical).
Case mapping models the ASCII fragment of JS `toUpperCase` /
`toLowerCase`, and `isWsC` models the ASCII fragment of the regex
class `\s`.
-/

/-- ASCII whitespace, the fragment of JS `\s` relevant here:
space, tab, LF, CR, VT, FF (code points 32, 9, 10, 13, 11, 12). -/
def wsProp (n : Nat) : Prop :=
  n = 32 ∨ n = 9 ∨ n = 10 ∨ n = 13 ∨ n = 11 ∨ n = 12

instance (n : Nat) : Decidable (wsProp n) := by
  unfold wsProp; infer_instance

/-- Whitespace test on characters (JS regex `\s`, ASCII fragment). -/
def isWsC (c : Char) : Bool := decide (wsProp c.toNat)

/-- ASCII decimal digit test (JS `parseInt` with radix 10). -/
def isDigitC (c : Char) : Bool := decide (48 ≤ c.toNat ∧ c.toNat ≤ 57)

/-- ASCII fragment of JS `String.prototype.toUpperCase`, per character. -/
def jsToUpperChar (c : Char) : Char :=
  if 97 ≤ c.toNat ∧ c.toNat ≤ 122 then Char.ofNat (c.toNat - 32) else c

/-- ASCII fragment of JS `String.prototype.toLowerCase`, per character. -/
def jsToLowerChar (c : Char) : Char :=
  if 65 ≤ c.toNat ∧ c.toNat ≤ 90 then Char.ofNat (c.toNat + 32) else c

/-- JS `s.toLowerCase()` (ASCII fragment). -/
def jsToLower (s : String) : String := ⟨s.data.map jsToLowerChar⟩

/-- JS `String.prototype.trim` on a character list:
drop whitespace from both ends. -/
def trimChars (l : List Char) : List Char :=
  ((l.dropWhile isWsC).reverse.dropWhile isWsC).reverse

mutual

/-- JS `.replace(/\s+/g, ' ')` on a character list: each maximal
run of whitespace becomes a single space. -/
def collapseWs : List Char → List Char
  | [] => []
  | c :: rest =>
    if isWsC c then ' ' :: collapseAfterWs rest else c :: collapseWs rest

/-- State of `collapseWs` after a space has been emitted for the
current whitespace run: skip the rest of the run. -/
def collapseAfterWs : List Char → List Char
  | [] => []
  | c :: rest =>
    if isWsC c then collapseAfterWs rest else c :: collapseWs rest

end

/-- `normalizeName` from the source: falsy (empty) input gives `''`;
otherwise trim, collapse internal whitespace to single spaces,
uppercase the first character and lowercase the rest. -/
def normalizeName (raw : String) : String :=
  if raw = "" then ""
  else
    match collapseWs (trimChars raw.data) with
    | [] => ""
    | c :: rest => ⟨jsToUpperChar c :: rest.map jsToLowerChar⟩

/-- One persisted point-change row (`readEvents` output shape). -/
structure Event where
  timestamp_iso : String
  date : String
  person : String
  delta : Int
  who : String
  note : String
deriving DecidableEq

/-- The initialization loops of `buildTotals`: every requested date is
present, every inner bucket starts at 0 (the code writes an explicit 0
for configured kids; absent inner keys are observationally 0 as well). -/
def initTotals (dates : List String) : String → Option (String → Int) :=
  fun d => if d ∈ dates then some (fun _ => 0) else none

/-- The event loop body of `buildTotals`: skip events whose date is not
a key of `totals`; otherwise add the delta into the bucket named by the
case-normalized person. -/
def applyEvent (t : String → Option (String → Int)) (e : Event) :
    String → Option (String → Int) :=
  match t e.date with
  | none => t
  | some day =>
    fun d =>
      if d = e.date then
        some (fun k =>
          if k = normalizeName e.person then
            day (normalizeName e.person) + e.delta
          else day k)
      else t d

/-- `buildTotals(events, dates, kids)` from the source. -/
def buildTotals (events : List Event) (dates kids : List String) :
    String → Option (String → Int) :=
  events.foldl applyEvent (initTotals dates)

/-- Observation of a totals table at a date and person, with the JS
`|| 0` default for absent keys. -/
def getTotal (t : String → Option (String → Int)) (d k : String) : Int :=
  match t d with
  | some day => day k
  | none => 0

/-- The signed sum of the deltas of the events matching a given date
and (case-normalized) person. -/
def sumMatching (events : List Event) (d k : String) : Int :=
  ((events.filter
      (fun e => decide (e.date = d ∧ normalizeName e.person = k))).map
    Event.delta).sum

theorem applyEvent_isSome (t : String → Option (String → Int)) (e : Event)
    (d : String) : (applyEvent t e d).isSome = (t d).isSome := by
  unfold applyEvent
  cases h : t e.date with
  | none => rfl
  | some day =>
    by_cases hd : d = e.date
    · subst hd; simp [h]
    · simp [hd]

theorem foldl_applyEvent_isSome (evts : List Event)
    (t : String → Option (String → Int)) (d : String) :
    ((evts.foldl applyEvent t) d).isSome = (t d).isSome := by
  induction evts generalizing t with
  | nil => rfl
  | cons e rest ih =>
    simp only [List.foldl_cons]
    rw [ih, applyEvent_isSome]

theorem getTotal_applyEvent (t : String → Option (String → Int)) (e : Event)
    (d k : String) (hd : (t d).isSome = true) :
    getTotal (applyEvent t e) d k =
      getTotal t d k +
        (if e.date = d ∧ normalizeName e.person = k then e.delta else 0) := by
  unfold applyEvent getTotal
  cases h : t e.date with
  | none =>
    have hne : ¬(e.date = d) := by
      intro heq; rw [heq] at h; rw [h] at hd; simp at hd
    simp [hne]
  | some day =>
    by_cases hde : d = e.date
    · subst hde
      rw [h]
      by_cases hk : k = normalizeName e.person
      · subst hk; simp [add_comm]
      · have hk' : ¬(normalizeName e.person = k) := fun hh => hk hh.symm
        simp [hk, hk']
    · have hde' : ¬(e.date = d) := fun hh => hde hh.symm
      simp [hde, hde']

theorem sumMatching_cons (e : Event) (rest : List Event) (d k : String) :
    sumMatching (e :: rest) d k =
      (if e.date = d ∧ normalizeName e.person = k then e.delta else 0) +
        sumMatching rest d k := by
  unfold sumMatching
  by_cases hp : e.date = d ∧ normalizeName e.person = k
  · simp [List.filter_cons, hp]
  · simp [List.filter_cons, hp]

theorem getTotal_foldl (evts : List Event)
    (t : String → Option (String → Int)) (d k : String)
    (hd : (t d).isSome = true) :
    getTotal (evts.foldl applyEvent t) d k =
      getTotal t d k + sumMatching evts d k := by
  induction evts generalizing t with
  | nil => simp [sumMatching]
  | cons e rest ih =>
    simp only [List.foldl_cons]
    rw [ih (applyEvent t e) (by rw [applyEvent_isSome]; exact hd),
      getTotal_applyEvent t e d k hd, sumMatching_cons]
    ring

theorem initTotals_isSome (dates : List String) (d : String) (hd : d ∈ dates) :
    (initTotals dates d).isSome = true := by
  simp [initTotals, hd]

/-- C1: for every event list, date list and configured person list,
`buildTotals` gives each (date, person) pair with `date` in the
requested dates the exact signed sum of the deltas of the events whose
date equals that date and whose case-normalized person equals that
person; in particular a pair with no matching events totals 0.  Being
a pure function, re-running it on the same input yields the same
totals. -/
theorem buildTotals_correct (events : List Event) (dates kids : List String)
    (d k : String) (hd : d ∈ dates) (hk : k ∈ kids) :
    getTotal (buildTotals events dates kids) d k = sumMatching events d k ∧
    ((∀ e ∈ events, ¬(e.date = d ∧ normalizeName e.person = k)) →
      getTotal (buildTotals events dates kids) d k = 0) ∧
    buildTotals events dates kids = buildTotals events dates kids := by
  have hmain : getTotal (buildTotals events dates kids) d k
      = sumMatching events d k := by
    unfold buildTotals
    rw [getTotal_foldl events (initTotals dates) d k (initTotals_isSome dates d hd)]
    simp [getTotal, initTotals, hd]
  refine ⟨hmain, ?_, rfl⟩
  intro hnone
  rw [hmain]
  have hfil : events.filter
      (fun e => decide (e.date = d ∧ normalizeName e.person = k)) = [] := by
    rw [List.filter_eq_nil_iff]
    intro e he
    simpa using hnone e he
  unfold sumMatching
  rw [hfil]
  simp

/-- Witness for C1 at a concrete input: two events for differently
cased spellings of the same child on the same day sum into one
bucket, and an unmatched pair totals 0. -/
theorem buildTotals_correct_witness :
    getTotal
      (buildTotals
        [⟨"t1", "2024-05-01", "KRISH", 2, "Parent", ""⟩,
         ⟨"t2", "2024-05-01", "krish", 3, "Parent", ""⟩]
        ["2024-04-30", "2024-05-01"] ["Krish", "Adith"])
      "2024-05-01" "Krish" =
      sumMatching
        [⟨"t1", "2024-05-01", "KRISH", 2, "Parent", ""⟩,
         ⟨"t2", "2024-05-01", "krish", 3, "Parent", ""⟩]
        "2024-05-01" "Krish" :=
  (buildTotals_correct
    [⟨"t1", "2024-05-01", "KRISH", 2, "Parent", ""⟩,
     ⟨"t2", "2024-05-01", "krish", 3, "Parent", ""⟩]
    ["2024-04-30", "2024-05-01"] ["Krish", "Adith"]
    "2024-05-01" "Krish" (by decide) (by decide)).1

/-- Decimal value of a digit run (the digits already isolated). -/
def digitsToNat (l : List Char) : Nat :=
  l.foldl (fun a c => a * 10 + (c.toNat - 48)) 0

/-- JS `parseInt(s, 10)` on the character list of `s`: skip leading
whitespace, read an optional sign, then the maximal decimal-digit
prefix; `none` models `NaN` (no digits found). -/
def parseIntJS (l : List Char) : Option Int :=
  let l1 := l.dropWhile isWsC
  match l1 with
  | '-' :: r =>
    let ds := r.takeWhile isDigitC
    if ds.isEmpty then none else some (-(digitsToNat ds : Int))
  | '+' :: r =>
    let ds := r.takeWhile isDigitC
    if ds.isEmpty then none else some ((digitsToNat ds : Int))
  | r =>
    let ds := r.takeWhile isDigitC
    if ds.isEmpty then none else some ((digitsToNat ds : Int))

/-- `toInt` from the source: `parseInt(value, 10)` with non-finite
results coerced to 0. -/
def toInt (s : String) : Int :=
  match parseIntJS s.data with
  | some n => n
  | none => 0

/-- JS `haystack.includes(needle)` on character lists: some suffix of
the haystack starts with the needle. -/
def listContainsSub (hay sub : List Char) : Bool :=
  hay.tails.any (fun t => sub.isPrefixOf t)

/-- JS `haystack.includes(needle)` on strings. -/
def strIncludes (hay sub : String) : Bool :=
  listContainsSub hay.data sub.data

/-- The fixed negative-intent keyword list of `AdjustPointsIntentHandler`
(note the seventh entry `"takeaway"`). -/
def negativeWords : List String :=
  ["reduce", "remove", "minus", "subtract", "deduct", "take away", "takeaway"]

/-- The direction text used by `AdjustPointsIntentHandler`:
`rawDirection ? rawDirection.toLowerCase() : 'add'` (a missing or
empty slot is falsy). -/
def directionText (rawDirection : Option String) : String :=
  match rawDirection with
  | some s => if s = "" then "add" else jsToLower s
  | none => "add"

/-- The positive magnitude used by `AdjustPointsIntentHandler`:
`Math.max(1, Math.abs(toInt(rawDelta || 1)))` (a missing or empty
delta slot is falsy, so `toInt` sees the number 1). -/
def deltaAmount (rawDelta : Option String) : Int :=
  let base :=
    match rawDelta with
    | some s => if s = "" then toInt "1" else toInt s
    | none => toInt "1"
  max 1 |base|

/-- The signed delta computed by `AdjustPointsIntentHandler` from the
direction and delta slots. -/
def adjustDelta (rawDirection rawDelta : Option String) : Int :=
  let direction := directionText rawDirection
  let amount := deltaAmount rawDelta
  let isNegative := negativeWords.any (fun w => strIncludes direction w)
  if isNegative then -amount else amount

/-- C2 as frozen is falsified by the seventh keyword: for direction
`"takeaway"` the code computes a negative delta, yet `"takeaway"`
contains none of the six keywords the claim lists ("take away" has a
space), so the claim's "negative iff a listed keyword occurs" fails
at this input. -/
theorem adjustDelta_takeaway_counterexample :
    adjustDelta (some "takeaway") none = -1 ∧
    (["reduce", "remove", "minus", "subtract", "deduct",
      "take away"].all
      (fun w => !(strIncludes (directionText (some "takeaway")) w))) = true := by
  constructor
  · decide
  · decide

/-- C2 (amended: the keyword list also contains `"takeaway"`): for
every delta and direction slot value, the computed signed delta has
magnitude at least 1, and it is negative exactly when the lowercased
direction text (default `"add"`) contains one of the seven
negative-intent keywords. -/
theorem adjustDelta_spec (rawDirection rawDelta : Option String) :
    1 ≤ |adjustDelta rawDirection rawDelta| ∧
    (adjustDelta rawDirection rawDelta < 0 ↔
      (negativeWords.any
        (fun w => strIncludes (directionText rawDirection) w)) = true) := by
  have hamt : 1 ≤ deltaAmount rawDelta := le_max_left 1 _
  unfold adjustDelta
  dsimp only
  split_ifs with hneg
  · constructor
    · rw [abs_neg, abs_of_nonneg (by omega)]; exact hamt
    · exact ⟨fun _ => hneg, fun _ => by omega⟩
  · constructor
    · rw [abs_of_nonneg (by omega)]; exact hamt
    · exact ⟨fun h => absurd h (by omega), fun h => absurd h hneg⟩

/-- `parseSummaryPeriod` from the source: a falsy raw value gives
`'today'`; otherwise substring tests for `'week'` then `'month'` on the
lowercased text, defaulting to `'today'`. -/
def parseSummaryPeriod (raw : Option String) : String :=
  match raw with
  | none => "today"
  | some s =>
    if s = "" then "today"
    else
      if strIncludes (jsToLower s) "week" then "week"
      else if strIncludes (jsToLower s) "month" then "month"
      else "today"

/-- C10: a non-empty raw period whose lowercased form contains both
`"week"` and `"month"` parses as `"week"` (the week test runs first),
and an absent raw value parses as `"today"`. -/
theorem parseSummaryPeriod_week_precedence :
    (∀ s : String, s ≠ "" →
      strIncludes (jsToLower s) "week" = true →
      strIncludes (jsToLower s) "month" = true →
      parseSummaryPeriod (some s) = "week") ∧
    parseSummaryPeriod none = "today" := by
  constructor
  · intro s hs hw _
    simp only [parseSummaryPeriod]
    rw [if_neg hs, if_pos hw]
  · rfl

/-- Witness for C10 at the concrete period text `"WeekMonth"`. -/
theorem parseSummaryPeriod_week_precedence_witness :
    parseSummaryPeriod (some "WeekMonth") = "week" :=
  parseSummaryPeriod_week_precedence.1 "WeekMonth" (by decide) (by decide)
    (by decide)

/-- Per-slot answer in a `CanFulfillIntentRequest` response. -/
structure CanFulfillSlot where
  canUnderstand : String
  canFulfill : String
deriving DecidableEq

/-- `buildCanFulfillResponse(canFulfill, slots)` output shape; `slots`
is `none` when the second argument is omitted. -/
structure CanFulfillResp where
  canFulfill : String
  slots : Option (List (String × CanFulfillSlot))
deriving DecidableEq

/-- `buildCanFulfillResponse` from the source. -/
def buildCanFulfillResponse (cf : String)
    (slots : Option (List (String × CanFulfillSlot))) : CanFulfillResp :=
  ⟨cf, slots⟩

/-- The persisted spreadsheet state visible to the skill: the
`Families` rows and the per-family events tabs. -/
structure SheetState where
  families : List (List String)
  eventTabs : List (String × List (List String))
deriving DecidableEq

/-- The `handle` body of `CanFulfillIntentRequestHandler`: a pure
case split on the intent name. -/
def canFulfillHandle (intentName : String) : CanFulfillResp :=
  if intentName = "AdjustPointsIntent" then
    buildCanFulfillResponse "YES"
      (some [("person", ⟨"MAYBE", "MAYBE"⟩), ("delta", ⟨"YES", "YES"⟩),
             ("direction", ⟨"YES", "YES"⟩)])
  else if intentName = "SummaryIntent" then
    buildCanFulfillResponse "YES" (some [("period", ⟨"YES", "YES"⟩)])
  else if intentName = "ConfigureKidsIntent" then
    buildCanFulfillResponse "YES" (some [("kids", ⟨"YES", "YES"⟩)])
  else
    buildCanFulfillResponse "NO" none

/-- The pre-check as a state transformer: the source handler performs
no spreadsheet call, so the persisted state passes through untouched. -/
def canFulfillStep (st : SheetState) (intentName : String) :
    SheetState × CanFulfillResp :=
  (st, canFulfillHandle intentName)

/-- C9: the can-fulfill pre-check leaves the persisted state unchanged
(no append, no sheet or header creation, no family-config save), and
answers `YES` exactly for the three slot-bearing custom intents that
live handling fulfills. -/
theorem canFulfill_no_side_effects (st : SheetState) (name : String) :
    (canFulfillStep st name).1 = st ∧
    ((canFulfillStep st name).2.canFulfill = "YES" ↔
      (name = "AdjustPointsIntent" ∨ name = "SummaryIntent" ∨
        name = "ConfigureKidsIntent")) := by
  refine ⟨rfl, ?_⟩
  unfold canFulfillStep canFulfillHandle buildCanFulfillResponse
  split_ifs with h1 h2 h3 <;> simp_all

/-- A cell of a persisted row with the JS `row[i] || ''` default for a
short row. -/
def jsCell (row : List String) (i : Nat) : String := row.getD i ""

/-- `readEvents` from the source, applied to the raw value rows of a
family's events tab: map each row to an event (missing cells default
to `''`, the delta cell through `toInt`), then drop rows with a blank
date or person. -/
def readEvents (rows : List (List String)) : List Event :=
  (rows.map (fun row =>
    { timestamp_iso := jsCell row 0
      date := jsCell row 1
      person := jsCell row 2
      delta := toInt (jsCell row 3)
      who := jsCell row 4
      note := jsCell row 5 : Event })).filter
    (fun e => !(e.date = "") && !(e.person = ""))

/-- C6: `readEvents` is total on arbitrary row lists (it never
raises), every event it returns has a non-empty date and person (and
an integer delta by construction), and a delta cell with no parsable
integer prefix is coerced to 0 by `toInt`. -/
theorem readEvents_defensive (rows : List (List String)) :
    (∀ e ∈ readEvents rows, e.date ≠ "" ∧ e.person ≠ "") ∧
    (∀ s : String, parseIntJS s.data = none → toInt s = 0) := by
  constructor
  · intro e he
    unfold readEvents at he
    have hp := List.of_mem_filter he
    constructor
    · intro h; rw [h] at hp; simp at hp
    · intro h; rw [h] at hp; simp at hp
  · intro s h
    unfold toInt
    rw [h]

/-- Witness for C6: a tab with a non-numeric delta cell, a row with a
blank date, and a short row: the malformed delta becomes 0 and only
rows with a date and person survive. -/
theorem readEvents_defensive_witness :
    readEvents
        [["t1", "2024-05-01", "Krish", "abc", "Parent", ""],
         ["t2", "", "Krish", "4", "Parent", ""],
         ["t3", "2024-05-02", "Adith"]] =
      [⟨"t1", "2024-05-01", "Krish", 0, "Parent", ""⟩,
       ⟨"t3", "2024-05-02", "Adith", 0, "", ""⟩] ∧
    (⟨"t1", "2024-05-01", "Krish", 0, "Parent", ""⟩ : Event).date ≠ "" ∧
    toInt "abc" = 0 :=
  ⟨by decide,
   ((readEvents_defensive
      [["t1", "2024-05-01", "Krish", "abc", "Parent", ""],
       ["t2", "", "Krish", "4", "Parent", ""],
       ["t3", "2024-05-02", "Adith"]]).1
     ⟨"t1", "2024-05-01", "Krish", 0, "Parent", ""⟩ (by decide)).1,
   (readEvents_defensive []).2 "abc" (by decide)⟩

/-- The current instant in the family's fixed timezone, reduced to
what the date-series builders consume: the calendar day holding the
instant (as an epoch-day index, `startOf('day')`), and its 1-based
day of month. -/
structure LocalNow where
  day : Int
  dom : Nat

/-- `buildDateSeries(now, dayCount)` from the source, dates only: the
loop pushes `day0.minus({days: i})` for `i = dayCount-1 .. 0`. -/
def buildDateSeries (day : Int) (dayCount : Nat) : List Int :=
  ((List.range dayCount).reverse).map (fun i => day - (i : Int))

/-- `buildMonthSeries(now)` from the source, dates only: from the
start of the current month up to today (`diffDays` full calendar days
apart). -/
def buildMonthSeries (now : LocalNow) : List Int :=
  let start : Int := now.day - ((now.dom : Int) - 1)
  let diffDays : Int := now.day - start
  (List.range (diffDays.toNat + 1)).map (fun i => start + (i : Int))

/-- The period dispatch of `buildSummaryData`: week gets a 7-day
series, month the month series, anything else (in particular
`'today'`) a 3-day series. -/
def summaryDates (period : String) (now : LocalNow) : List Int :=
  if period = "week" then buildDateSeries now.day 7
  else if period = "month" then buildMonthSeries now
  else buildDateSeries now.day 3

/-- C4: with day arithmetic in the family's fixed timezone (the model
takes the family-local calendar day and day-of-month as input), the
summary date series is: for `'today'` the 3 most recent calendar days
ending today; for `'week'` the 7 most recent days ending today; for
`'month'` every day from the 1st of the current month through today,
in chronological order. -/
theorem summaryDates_spec (now : LocalNow) (h : 1 ≤ now.dom) :
    summaryDates "today" now = [now.day - 2, now.day - 1, now.day] ∧
    summaryDates "week" now =
      [now.day - 6, now.day - 5, now.day - 4, now.day - 3, now.day - 2,
       now.day - 1, now.day] ∧
    summaryDates "month" now =
      (List.range now.dom).map
        (fun i => (now.day - ((now.dom : Int) - 1)) + (i : Int)) := by
  refine ⟨?_, ?_, ?_⟩
  · show buildDateSeries now.day 3 = _
    unfold buildDateSeries
    norm_num [List.range_succ]
  · show buildDateSeries now.day 7 = _
    unfold buildDateSeries
    norm_num [List.range_succ]
  · show buildMonthSeries now = _
    unfold buildMonthSeries
    dsimp only
    have h1 : (now.day - (now.day - ((now.dom : Int) - 1))).toNat + 1
        = now.dom := by omega
    rw [h1]

/-- Witness for C4 at a concrete instant: day index 1000, the 15th of
the month. -/
theorem summaryDates_spec_witness :
    summaryDates "today" ⟨1000, 15⟩ = [998, 999, 1000] ∧
    summaryDates "month" ⟨1000, 15⟩ =
      (List.range 15).map (fun i => (986 : Int) + (i : Int)) := by
  have h := summaryDates_spec ⟨1000, 15⟩ (by decide)
  refine ⟨h.1, ?_⟩
  rw [h.2.2]
  decide

theorem char_eq_of_toNat_eq (c d : Char) (h : c.toNat = d.toNat) : c = d :=
  Char.eq_of_val_eq (UInt32.ext h)

theorem char_toNat_ofNat (n : Nat) (h : n.isValidChar) :
    (Char.ofNat n).toNat = n := by
  rw [Char.ofNat, dif_pos h]; rfl

theorem toNat_jsToLowerChar (c : Char) :
    (jsToLowerChar c).toNat =
      if 65 ≤ c.toNat ∧ c.toNat ≤ 90 then c.toNat + 32 else c.toNat := by
  unfold jsToLowerChar
  split_ifs with h
  · apply char_toNat_ofNat
    unfold Nat.isValidChar
    omega
  · rfl

theorem toNat_jsToUpperChar (c : Char) :
    (jsToUpperChar c).toNat =
      if 97 ≤ c.toNat ∧ c.toNat ≤ 122 then c.toNat - 32 else c.toNat := by
  unfold jsToUpperChar
  split_ifs with h
  · apply char_toNat_ofNat
    unfold Nat.isValidChar
    omega
  · rfl

theorem isWsC_jsToLowerChar (c : Char) : isWsC (jsToLowerChar c) = isWsC c := by
  unfold isWsC
  rw [decide_eq_decide, toNat_jsToLowerChar]
  unfold wsProp
  split_ifs with h
  · omega
  · exact Iff.rfl

/-- Non-matched dates: `buildTotals` never creates a date key, so its
domain stays exactly the requested dates. -/
theorem applyEvent_none_of_none (t : String → Option (String → Int))
    (e : Event) (h : t e.date = none) : applyEvent t e = t := by
  unfold applyEvent
  rw [h]

theorem applyEvent_domain (t : String → Option (String → Int)) (e : Event)
    (dates : List String) (hdom : ∀ d, d ∉ dates → t d = none) :
    ∀ d, d ∉ dates → applyEvent t e d = none := by
  intro d hd
  unfold applyEvent
  cases h : t e.date with
  | none => exact hdom d hd
  | some day =>
    have hde : ¬(d = e.date) := by
      intro heq
      rw [heq] at hd
      rw [hdom e.date hd] at h
      exact Option.noConfusion h
    simp only [if_neg hde]
    exact hdom d hd

theorem foldl_filter_dates (evts : List Event)
    (t : String → Option (String → Int)) (dates : List String)
    (hdom : ∀ d, d ∉ dates → t d = none) :
    (evts.filter (fun e => decide (e.date ∈ dates))).foldl applyEvent t =
      evts.foldl applyEvent t := by
  induction evts generalizing t with
  | nil => rfl
  | cons e rest ih =>
    rw [List.filter_cons]
    by_cases hm : e.date ∈ dates
    · have hdec : decide (e.date ∈ dates) = true := by simpa using hm
      rw [hdec, if_pos rfl, List.foldl_cons, List.foldl_cons]
      exact ih (applyEvent t e) (applyEvent_domain t e dates hdom)
    · have hdec : decide (e.date ∈ dates) = false := by simpa using hm
      rw [hdec, if_neg Bool.false_ne_true, List.foldl_cons,
        applyEvent_none_of_none t e (hdom e.date hm)]
      exact ih t hdom

theorem getTotal_applyEvent_other (t : String → Option (String → Int))
    (e : Event) (d k : String) (hk : normalizeName e.person ≠ k) :
    getTotal (applyEvent t e) d k = getTotal t d k := by
  unfold applyEvent getTotal
  cases h : t e.date with
  | none => rfl
  | some day =>
    by_cases hde : d = e.date
    · subst hde
      rw [h]
      have hk' : ¬(k = normalizeName e.person) := fun hh => hk hh.symm
      simp [hk']
    · simp [hde]

/-- C7: events whose date is outside the requested date set contribute
nothing (filtering them away first yields the very same totals table),
and an event whose normalized person matches no configured kid is
processed without error and never alters any configured kid's total. -/
theorem buildTotals_frame (events : List Event) (dates kids : List String) :
    buildTotals (events.filter (fun e => decide (e.date ∈ dates))) dates kids =
      buildTotals events dates kids ∧
    (∀ (e : Event) (d k : String), k ∈ kids → normalizeName e.person ≠ k →
      getTotal (buildTotals (events ++ [e]) dates kids) d k =
        getTotal (buildTotals events dates kids) d k) := by
  constructor
  · unfold buildTotals
    apply foldl_filter_dates
    intro d hd
    simp [initTotals, hd]
  · intro e d k hk hne
    unfold buildTotals
    rw [List.foldl_append, List.foldl_cons, List.foldl_nil]
    exact getTotal_applyEvent_other _ e d k hne

/-- Witness for C7: an event for the unconfigured person `"Zed"` is
absorbed without changing Krish's total. -/
theorem buildTotals_frame_witness :
    getTotal
        (buildTotals
          ([⟨"t1", "2024-05-01", "Krish", 2, "Parent", ""⟩] ++
            [⟨"t2", "2024-05-01", "Zed", 7, "Parent", ""⟩])
          ["2024-05-01"] ["Krish"])
        "2024-05-01" "Krish" =
      getTotal
        (buildTotals [⟨"t1", "2024-05-01", "Krish", 2, "Parent", ""⟩]
          ["2024-05-01"] ["Krish"])
        "2024-05-01" "Krish" :=
  (buildTotals_frame [⟨"t1", "2024-05-01", "Krish", 2, "Parent", ""⟩]
      ["2024-05-01"] ["Krish"]).2
    ⟨"t2", "2024-05-01", "Zed", 7, "Parent", ""⟩ "2024-05-01" "Krish"
    (by decide) (by decide)

/-- Two strings that differ only in ASCII letter casing: they agree
character by character after lowercasing. -/
def sameUpToCase (s t : String) : Prop :=
  s.data.map jsToLowerChar = t.data.map jsToLowerChar

instance (s t : String) : Decidable (sameUpToCase s t) := by
  unfold sameUpToCase; infer_instance

/-- Two events that differ only in the casing of their person field. -/
def sameEventUpToCase (e e' : Event) : Prop :=
  e.timestamp_iso = e'.timestamp_iso ∧ e.date = e'.date ∧
    sameUpToCase e.person e'.person ∧ e.delta = e'.delta ∧
    e.who = e'.who ∧ e.note = e'.note

theorem jsup_eq_of_jslow_eq (c c' : Char)
    (h : jsToLowerChar c = jsToLowerChar c') :
    jsToUpperChar c = jsToUpperChar c' := by
  have h' : (jsToLowerChar c).toNat = (jsToLowerChar c').toNat :=
    congrArg Char.toNat h
  rw [toNat_jsToLowerChar, toNat_jsToLowerChar] at h'
  apply char_eq_of_toNat_eq
  rw [toNat_jsToUpperChar, toNat_jsToUpperChar]
  split_ifs at h' ⊢ <;> omega

theorem ws_eq_of_jslow_eq (c c' : Char)
    (h : jsToLowerChar c = jsToLowerChar c') : isWsC c = isWsC c' := by
  rw [← isWsC_jsToLowerChar c, ← isWsC_jsToLowerChar c', h]

theorem forall₂_of_map_eq (f : Char → Char) (l l' : List Char)
    (h : l.map f = l'.map f) : List.Forall₂ (fun a b => f a = f b) l l' := by
  induction l generalizing l' with
  | nil =>
    cases l' with
    | nil => exact List.Forall₂.nil
    | cons c r => exact absurd h (by simp)
  | cons c r ih =>
    cases l' with
    | nil => exact absurd h (by simp)
    | cons c' r' =>
      simp only [List.map_cons, List.cons.injEq] at h
      exact List.Forall₂.cons h.1 (ih r' h.2)

theorem map_eq_of_forall₂ (f : Char → Char) (l l' : List Char)
    (h : List.Forall₂ (fun a b => f a = f b) l l') : l.map f = l'.map f := by
  induction h with
  | nil => rfl
  | cons hab htail ih => simp only [List.map_cons, hab, ih]

theorem forall₂_dropWhile (p : Char → Bool) (l l' : List Char)
    (h : List.Forall₂ (fun a b => jsToLowerChar a = jsToLowerChar b) l l')
    (hp : ∀ a b, jsToLowerChar a = jsToLowerChar b → p a = p b) :
    List.Forall₂ (fun a b => jsToLowerChar a = jsToLowerChar b)
      (l.dropWhile p) (l'.dropWhile p) := by
  induction h with
  | nil => exact List.Forall₂.nil
  | cons hab htail ih =>
    rw [List.dropWhile_cons, List.dropWhile_cons]
    rw [hp _ _ hab]
    split_ifs with hb
    · exact ih
    · exact List.Forall₂.cons hab htail

theorem forall₂_trimChars (l l' : List Char)
    (h : List.Forall₂ (fun a b => jsToLowerChar a = jsToLowerChar b) l l') :
    List.Forall₂ (fun a b => jsToLowerChar a = jsToLowerChar b)
      (trimChars l) (trimChars l') := by
  unfold trimChars
  apply List.rel_reverse
  apply forall₂_dropWhile _ _ _ _ ws_eq_of_jslow_eq
  apply List.rel_reverse
  exact forall₂_dropWhile _ _ _ h ws_eq_of_jslow_eq

theorem forall₂_collapse (n : Nat) :
    ∀ (l l' : List Char), l.length ≤ n →
      List.Forall₂ (fun a b => jsToLowerChar a = jsToLowerChar b) l l' →
      List.Forall₂ (fun a b => jsToLowerChar a = jsToLowerChar b)
          (collapseWs l) (collapseWs l') ∧
        List.Forall₂ (fun a b => jsToLowerChar a = jsToLowerChar b)
          (collapseAfterWs l) (collapseAfterWs l') := by
  induction n with
  | zero =>
    intro l l' hlen h
    cases h with
    | nil => exact ⟨List.Forall₂.nil, List.Forall₂.nil⟩
    | cons hab htail => simp at hlen
  | succ n ih =>
    intro l l' hlen h
    cases h with
    | nil => exact ⟨List.Forall₂.nil, List.Forall₂.nil⟩
    | @cons a b r r' hab htail =>
      have hr : r.length ≤ n := by
        simp only [List.length_cons] at hlen; omega
      have hrec := ih r r' hr htail
      constructor
      · show List.Forall₂ _ (collapseWs (a :: r)) (collapseWs (b :: r'))
        rw [collapseWs, collapseWs, ws_eq_of_jslow_eq a b hab]
        split_ifs with hw
        · exact List.Forall₂.cons rfl hrec.2
        · exact List.Forall₂.cons hab hrec.1
      · show List.Forall₂ _ (collapseAfterWs (a :: r))
          (collapseAfterWs (b :: r'))
        rw [collapseAfterWs, collapseAfterWs, ws_eq_of_jslow_eq a b hab]
        split_ifs with hw
        · exact hrec.2
        · exact List.Forall₂.cons hab hrec.1

/-- `normalizeName` is invariant under changes of ASCII letter casing
in its input. -/
theorem normalizeName_case_invariant (s s' : String)
    (h : sameUpToCase s s') : normalizeName s = normalizeName s' := by
  unfold sameUpToCase at h
  have hlen : s.data.length = s'.data.length := by
    have := congrArg List.length h
    simpa using this
  have hemp : s = "" ↔ s' = "" := by
    constructor
    · intro hs
      apply String.ext
      apply List.length_eq_zero.mp
      rw [← hlen, hs]
      rfl
    · intro hs
      apply String.ext
      apply List.length_eq_zero.mp
      rw [hlen, hs]
      rfl
  unfold normalizeName
  by_cases hs : s = ""
  · rw [if_pos hs, if_pos (hemp.mp hs)]
  · rw [if_neg hs, if_neg (fun hh => hs (hemp.mpr hh))]
    have hf : List.Forall₂ (fun a b => jsToLowerChar a = jsToLowerChar b)
        s.data s'.data := forall₂_of_map_eq jsToLowerChar _ _ h
    have hclean :=
      (forall₂_collapse (trimChars s.data).length (trimChars s.data)
        (trimChars s'.data) (le_refl _) (forall₂_trimChars _ _ hf)).1
    revert hclean
    generalize collapseWs (trimChars s.data) = u
    generalize collapseWs (trimChars s'.data) = u'
    intro hclean
    cases hclean with
    | nil => rfl
    | @cons c c' rest rest' hcc htail =>
      show String.mk _ = String.mk _
      apply congrArg String.mk
      rw [jsup_eq_of_jslow_eq c c' hcc,
        map_eq_of_forall₂ jsToLowerChar rest rest' htail]

theorem applyEvent_congr (t : String → Option (String → Int)) (e e' : Event)
    (h : sameEventUpToCase e e') : applyEvent t e = applyEvent t e' := by
  obtain ⟨h1, h2, h3, h4, h5, h6⟩ := h
  have hn : normalizeName e.person = normalizeName e'.person :=
    normalizeName_case_invariant _ _ h3
  unfold applyEvent
  simp only [h2, h4, hn]

theorem foldl_applyEvent_congr (events events' : List Event)
    (h : List.Forall₂ sameEventUpToCase events events') :
    ∀ t, events.foldl applyEvent t = events'.foldl applyEvent t := by
  induction h with
  | nil => intro t; rfl
  | @cons e e' r r' hee htail ih =>
    intro t
    rw [List.foldl_cons, List.foldl_cons, applyEvent_congr t e e' hee]
    exact ih _

/-- C8: two event lists that differ only in the letter casing of their
person fields aggregate to identical totals tables: person names are
case-normalized before bucketing. -/
theorem buildTotals_case_insensitive (events events' : List Event)
    (dates kids : List String)
    (h : List.Forall₂ sameEventUpToCase events events') :
    buildTotals events dates kids = buildTotals events' dates kids :=
  foldl_applyEvent_congr events events' h (initTotals dates)

/-- Witness for C8: `"KRISH"` and `"krish"` events produce the same
totals table. -/
theorem buildTotals_case_insensitive_witness :
    buildTotals [⟨"t1", "2024-05-01", "KRISH", 2, "Parent", ""⟩]
        ["2024-05-01"] ["Krish"] =
      buildTotals [⟨"t1", "2024-05-01", "krish", 2, "Parent", ""⟩]
        ["2024-05-01"] ["Krish"] :=
  buildTotals_case_insensitive _ _ _ _
    (List.Forall₂.cons ⟨rfl, rfl, by decide, rfl, rfl, rfl⟩ List.Forall₂.nil)

/-- `MAX_BAR_HEIGHT` from the source. -/
def MAX_BAR_HEIGHT : Nat := 200

/-- `SPARK_MAX_HEIGHT` from the source. -/
def SPARK_MAX_HEIGHT : Nat := 60

/-- `formatPoints` from the source. -/
def formatPoints (value : Int) : String :=
  let a := value.natAbs
  let points := if a = 1 then "point" else "points"
  if value < 0 then "minus " ++ toString a ++ " " ++ points
  else toString a ++ " " ++ points

/-- One summary entry of the trend payload. -/
structure SummaryEntry where
  name : String
  value : Int
  display : String
deriving DecidableEq

/-- One sparkline entry of the trend payload. -/
structure SparkEntry where
  value : Int
  height : Int
  color : String
  label : String
  labelOpacity : Nat
  width : Int
deriving DecidableEq

/-- One bar of a person's series in the trend payload. -/
structure TrendBar where
  label : String
  labelOpacity : Nat
  value : Int
  height : Int
  color : String
  width : Nat
deriving DecidableEq

/-- One person block of the trend payload. -/
structure TrendPerson where
  name : String
  bars : List TrendBar
deriving DecidableEq

/-- The full trend payload datasource. -/
structure TrendPayload where
  title : String
  summaryLabel : String
  dateLabel : String
  barSpacing : Nat
  summary : List SummaryEntry
  spark : List SparkEntry
  people : List TrendPerson
deriving DecidableEq

/-- `buildTrendPayload` from the source.  `totals` is the totals table
restricted to its defined dates (the callers always pass the
`buildTotals` result over the same `dates`), with the `|| 0` defaults
absorbed into the function; `summaryTotals` and `rangeLabel` are the
optional trailing arguments (`null` when omitted). -/
def buildTrendPayload (dates labels : List String)
    (totals : String → String → Int) (kids : List String)
    (title summaryLabel : String) (summaryTotals : Option (String → Int))
    (rangeLabel : Option String) : TrendPayload :=
  let series := kids.map (fun name =>
    (name, dates.map (fun date => totals date name)))
  let maxAbs : Nat :=
    ((series.map (fun s => s.2.map Int.natAbs)).flatten).foldl Nat.max 1
  let fallbackTotals : String → Int :=
    match dates.getLast? with
    | some d => totals d
    | none => fun _ => 0
  let summaryValues := summaryTotals.getD fallbackTotals
  let summary := kids.map (fun name =>
    { name := name
      value := summaryValues name
      display := formatPoints (summaryValues name) : SummaryEntry })
  let count := dates.length
  let barWidth : Nat :=
    if count ≤ 3 then 18 else if count ≤ 7 then 12
    else if count ≤ 14 then 8 else 6
  let barSpacing : Nat :=
    if count ≤ 3 then 6 else if count ≤ 7 then 4
    else if count ≤ 14 then 3 else 2
  let labelStep : Nat := if count ≤ 7 then 1 else (count + 4) / 5
  let sparkValues := dates.map (fun date =>
    (kids.map (fun kid => totals date kid)).foldl (· + ·) 0)
  let sparkMaxAbs : Nat := (sparkValues.map Int.natAbs).foldl Nat.max 1
  let sparkWidth : Int := max 4 (round ((barWidth : ℚ) * 7 / 10))
  let spark := sparkValues.enum.map (fun (p : Nat × Int) =>
    { value := p.2
      height := round ((p.2.natAbs : ℚ) / (sparkMaxAbs : ℚ) *
        (SPARK_MAX_HEIGHT : ℚ))
      color := if p.2 < 0 then "#D9480F" else "#2F9E44"
      label :=
        if p.1 % labelStep = 0 ∨ p.1 = count - 1 then labels.getD p.1 ""
        else ""
      labelOpacity := if p.1 % labelStep = 0 ∨ p.1 = count - 1 then 1 else 0
      width := sparkWidth : SparkEntry })
  let people := series.map (fun s =>
    { name := s.1
      bars := s.2.enum.map (fun (p : Nat × Int) =>
        { label :=
            if p.1 % labelStep = 0 ∨ p.1 = count - 1 then labels.getD p.1 ""
            else ""
          labelOpacity :=
            if p.1 % labelStep = 0 ∨ p.1 = count - 1 then 1 else 0
          value := p.2
          height := round ((p.2.natAbs : ℚ) / (maxAbs : ℚ) *
            (MAX_BAR_HEIGHT : ℚ))
          color := if p.2 < 0 then "#D9480F" else "#2F9E44"
          width := barWidth : TrendBar }) : TrendPerson })
  { title := title
    summaryLabel := summaryLabel
    dateLabel := rangeLabel.getD (labels.getLast?.getD "")
    barSpacing := barSpacing
    summary := summary
    spark := spark
    people := people }

theorem foldl_max_init (l : List Nat) (a : Nat) : a ≤ l.foldl Nat.max a := by
  induction l generalizing a with
  | nil => exact le_refl a
  | cons b t ih => exact le_trans (Nat.le_max_left a b) (ih (Nat.max a b))

theorem le_foldl_max (l : List Nat) (a x : Nat) (hx : x ∈ l) :
    x ≤ l.foldl Nat.max a := by
  induction l generalizing a with
  | nil => cases hx
  | cons b t ih =>
    rcases List.mem_cons.mp hx with h | h
    · subst h
      exact le_trans (Nat.le_max_right a x) (foldl_max_init t (Nat.max a x))
    · exact ih (Nat.max a b) h

theorem round_bounds (q : ℚ) (B : ℤ) (h0 : 0 ≤ q) (hB : q ≤ (B : ℚ)) :
    0 ≤ round q ∧ round q ≤ B := by
  rw [round_eq]
  constructor
  · apply Int.le_floor.mpr
    push_cast
    linarith
  · have hlt : ⌊q + 1 / 2⌋ < (B : ℤ) + 1 := by
      apply Int.floor_lt.mpr
      push_cast
      linarith
    omega

theorem ratio_le (a m : ℕ) (B : ℚ) (hm : 1 ≤ m) (ha : a ≤ m) (hB : 0 ≤ B) :
    0 ≤ (a : ℚ) / (m : ℚ) * B ∧ (a : ℚ) / (m : ℚ) * B ≤ B := by
  have hm0 : (0 : ℚ) < (m : ℚ) := by
    have : (0 : ℕ) < m := hm
    exact_mod_cast this
  constructor
  · positivity
  · have h1 : (a : ℚ) / (m : ℚ) ≤ 1 := by
      rw [div_le_one hm0]
      exact_mod_cast ha
    calc (a : ℚ) / (m : ℚ) * B ≤ 1 * B :=
          mul_le_mul_of_nonneg_right h1 hB
      _ = B := one_mul _

theorem enumFrom_map_val {α β : Type} (f : α → β) :
    ∀ (n : Nat) (l : List α),
      ((List.enumFrom n l).map (fun p => f p.2)) = l.map f := by
  intro n l
  induction l generalizing n with
  | nil => rfl
  | cons a t ih =>
    simp only [List.enumFrom, List.map_cons]
    rw [ih (n + 1)]

theorem mem_enumFrom_snd {α : Type} (p : Nat × α) :
    ∀ (n : Nat) (l : List α), p ∈ List.enumFrom n l → p.2 ∈ l := by
  intro n l
  induction l generalizing n with
  | nil => intro h; cases h
  | cons a t ih =>
    intro h
    rcases List.mem_cons.mp h with h | h
    · subst h; exact List.mem_cons_self _ _
    · exact List.mem_cons_of_mem _ (ih (n + 1) h)

/-- C5: in every trend payload, each person's bar heights equal
`round(|value| / max * 200)` where `max` is the maximum absolute value
across all persons and dates in view (minimum denominator 1), and each
sparkline height equals `round(|combined| / sparkMax * 60)` where
`sparkMax` is the maximum absolute combined per-date total (minimum
denominator 1); consequently every bar height lies in [0, 200] and
every sparkline height in [0, 60]. -/
theorem buildTrendPayload_heights (dates labels : List String)
    (totals : String → String → Int) (kids : List String)
    (title summaryLabel : String) (summaryTotals : Option (String → Int))
    (rangeLabel : Option String) :
    (∀ pe ∈ (buildTrendPayload dates labels totals kids title summaryLabel
        summaryTotals rangeLabel).people, ∀ b ∈ pe.bars,
      b.height = round ((b.value.natAbs : ℚ) /
          (((kids.map (fun name =>
              (dates.map (fun date => totals date name)).map
                Int.natAbs)).flatten.foldl Nat.max 1 : ℕ) : ℚ) * 200) ∧
      0 ≤ b.height ∧ b.height ≤ 200) ∧
    (∀ sp ∈ (buildTrendPayload dates labels totals kids title summaryLabel
        summaryTotals rangeLabel).spark,
      sp.height = round ((sp.value.natAbs : ℚ) /
          ((((dates.map (fun date =>
              (kids.map (fun kid => totals date kid)).foldl (· + ·)
                0)).map Int.natAbs).foldl Nat.max 1 : ℕ) : ℚ) * 60) ∧
      0 ≤ sp.height ∧ sp.height ≤ 60) := by
  unfold buildTrendPayload
  dsimp only
  constructor
  · intro pe hpe b hb
    rw [List.mem_map] at hpe
    obtain ⟨s, hs, rfl⟩ := hpe
    rw [List.mem_map] at hs
    obtain ⟨name, hname, rfl⟩ := hs
    dsimp only at hb
    rw [List.mem_map] at hb
    obtain ⟨p, hp, rfl⟩ := hb
    dsimp only
    have hval : p.2 ∈ dates.map (fun date => totals date name) :=
      mem_enumFrom_snd p 0 _ hp
    have hA : p.2.natAbs ≤
        (kids.map (fun name =>
          (dates.map (fun date => totals date name)).map
            Int.natAbs)).flatten.foldl Nat.max 1 := by
      apply le_foldl_max
      apply List.mem_flatten.mpr
      exact ⟨(dates.map (fun date => totals date name)).map Int.natAbs,
        List.mem_map_of_mem _ hname, List.mem_map_of_mem Int.natAbs hval⟩
    have hM1 : 1 ≤
        (kids.map (fun name =>
          (dates.map (fun date => totals date name)).map
            Int.natAbs)).flatten.foldl Nat.max 1 := foldl_max_init _ 1
    have hq := ratio_le p.2.natAbs _ (200 : ℚ) hM1 hA (by norm_num)
    simp only [List.map_map, Function.comp_def, MAX_BAR_HEIGHT,
      Nat.cast_ofNat]
    simp only [List.map_map, Function.comp_def] at hq
    refine ⟨by trivial, ?_, ?_⟩
    · refine (round_bounds _ 200 hq.1 ?_).1
      exact_mod_cast hq.2
    · refine (round_bounds _ 200 hq.1 ?_).2
      exact_mod_cast hq.2
  · intro sp hsp
    rw [List.mem_map] at hsp
    obtain ⟨p, hp, rfl⟩ := hsp
    dsimp only
    have hval : p.2 ∈ dates.map (fun date =>
        (kids.map (fun kid => totals date kid)).foldl (· + ·) 0) :=
      mem_enumFrom_snd p 0 _ hp
    have hA : p.2.natAbs ≤
        ((dates.map (fun date =>
          (kids.map (fun kid => totals date kid)).foldl (· + ·) 0)).map
          Int.natAbs).foldl Nat.max 1 :=
      le_foldl_max _ 1 _ (List.mem_map_of_mem Int.natAbs hval)
    have hM1 : 1 ≤
        ((dates.map (fun date =>
          (kids.map (fun kid => totals date kid)).foldl (· + ·) 0)).map
          Int.natAbs).foldl Nat.max 1 := foldl_max_init _ 1
    have hq := ratio_le p.2.natAbs _ (60 : ℚ) hM1 hA (by norm_num)
    simp only [SPARK_MAX_HEIGHT, Nat.cast_ofNat]
    refine ⟨by trivial, ?_, ?_⟩
    · refine (round_bounds _ 60 hq.1 ?_).1
      exact_mod_cast hq.2
    · refine (round_bounds _ 60 hq.1 ?_).2
      exact_mod_cast hq.2

/-- `MAX_KIDS` from the source. -/
def MAX_KIDS : Nat := 6

/-- JS `.replace(/&/g, ' and ')`: every ampersand becomes `' and '`. -/
def replaceAmp : List Char → List Char
  | [] => []
  | c :: rest =>
    if c = '&' then ' ' :: 'a' :: 'n' :: 'd' :: ' ' :: replaceAmp rest
    else c :: replaceAmp rest

/-- One match attempt of the regex `/\s+and\s+/i` at the head of the
list: at least one whitespace, the word `and` case-insensitively, then
the maximal following whitespace run; returns the remainder after the
match.  (`\s+` backtracking is vacuous here because whitespace can
never be the letter `a`.) -/
def tryMatchAnd (l : List Char) : Option (List Char) :=
  match l with
  | [] => none
  | c :: rest =>
    if isWsC c then
      match rest.dropWhile isWsC with
      | a :: n :: d :: rest2 =>
        if (a = 'a' ∨ a = 'A') ∧ (n = 'n' ∨ n = 'N') ∧ (d = 'd' ∨ d = 'D')
        then
          match rest2 with
          | w :: rest3 =>
            if isWsC w then some (rest3.dropWhile isWsC) else none
          | [] => none
        else none
      | _ => none
    else none

/-- The global left-to-right scan of `.replace(/\s+and\s+/gi, ',')`,
fueled by the input length (every step consumes at least one
character, so the fuel never runs out on the initial call). -/
def replaceAndGo : Nat → List Char → List Char
  | 0, l => l
  | _ + 1, [] => []
  | fuel + 1, c :: rest =>
    match tryMatchAnd (c :: rest) with
    | some r => ',' :: replaceAndGo fuel r
    | none => c :: replaceAndGo fuel rest

/-- JS `.replace(/\s+and\s+/gi, ',')`. -/
def replaceAnd (l : List Char) : List Char := replaceAndGo l.length l

/-- One match attempt of `/\s*,\s*/` at the head of the list. -/
def tryMatchComma (l : List Char) : Option (List Char) :=
  match l.dropWhile isWsC with
  | c :: rest => if c = ',' then some (rest.dropWhile isWsC) else none
  | [] => none

/-- The global scan of `.replace(/\s*,\s*/g, ',')`, fueled by the
input length (every match consumes at least the comma). -/
def replaceCommaGo : Nat → List Char → List Char
  | 0, l => l
  | _ + 1, [] => []
  | fuel + 1, c :: rest =>
    match tryMatchComma (c :: rest) with
    | some r => ',' :: replaceCommaGo fuel r
    | none => c :: replaceCommaGo fuel rest

/-- JS `.replace(/\s*,\s*/g, ',')`. -/
def replaceComma (l : List Char) : List Char := replaceCommaGo l.length l

/-- Maximal whitespace suffix removal (the trailing half of JS
`trim`). -/
def dropTrailingWs : List Char → List Char
  | [] => []
  | c :: rest =>
    match dropTrailingWs rest with
    | [] => if isWsC c then [] else [c]
    | r => c :: r

/-- JS `.trim()`: remove whitespace from both ends. -/
def jsTrimChars (l : List Char) : List Char :=
  dropTrailingWs (l.dropWhile isWsC)

/-- JS `s.split(',')` on character lists: the accumulator collects the
current token in reverse. -/
def splitCommaGo : List Char → List Char → List (List Char)
  | [], acc => [acc.reverse]
  | c :: rest, acc =>
    if c = ',' then acc.reverse :: splitCommaGo rest []
    else splitCommaGo rest (c :: acc)

/-- JS `s.split(',')`. -/
def splitComma (l : List Char) : List (List Char) := splitCommaGo l []

/-- The `names` intermediate of `parseKidsInput`: normalize separators
(`&` and the word `and` become commas), trim, split on commas,
normalize each token, and drop empty tokens. -/
def kidsNames (raw : String) : List String :=
  ((splitComma
      (jsTrimChars (replaceComma (replaceAnd (replaceAmp raw.data))))).map
    (fun t => normalizeName ⟨t⟩)).filter (fun n => !(decide (n = "")))

/-- The deduplication loop of `parseKidsInput`: keep a name only if no
already kept name equals it case-insensitively.  (The JS truthiness
test on `unique.find(...)` coincides with this because the incoming
names are all non-empty.) -/
def dedupGo : List String → List String → List String
  | acc, [] => acc
  | acc, n :: rest =>
    if acc.any (fun m => decide (jsToLower m = jsToLower n)) then
      dedupGo acc rest
    else dedupGo (acc ++ [n]) rest

/-- `parseKidsInput` from the source: falsy input gives `[]`;
otherwise separator normalization, tokenization, per-token
normalization, case-insensitive first-occurrence deduplication, and
truncation to `MAX_KIDS`. -/
def parseKidsInput (raw : String) : List String :=
  if raw = "" then []
  else (dedupGo [] (kidsNames raw)).take MAX_KIDS

/-- Whether a list's head exists and is not whitespace (vacuously true
for the empty list). -/
def headNotWs (l : List Char) : Bool :=
  match l with
  | [] => true
  | d :: _ => !(isWsC d)

/-- Whether a list's last element, when present, is not whitespace. -/
def lastNotWs (l : List Char) : Bool :=
  match l.getLast? with
  | some d => !(isWsC d)
  | none => true

/-- No two adjacent whitespace characters. -/
def noAdjWs : List Char → Bool
  | [] => true
  | [_] => true
  | a :: b :: r => (!(isWsC a) || !(isWsC b)) && noAdjWs (b :: r)

/-- The normal form produced by `normalizeName` on non-empty output,
read off the claim: non-empty, trimmed (no whitespace at either end),
internal whitespace collapsed (no adjacent whitespace, every
whitespace character is a plain space), first character not a
lowercase ASCII letter (capitalized), every later character not an
uppercase ASCII letter (lowercased). -/
def isTitleForm (s : String) : Bool :=
  match s.data with
  | [] => false
  | c :: rest =>
    !(isWsC c) &&
    decide (¬(97 ≤ c.toNat ∧ c.toNat ≤ 122)) &&
    rest.all (fun d => decide (¬(65 ≤ d.toNat ∧ d.toNat ≤ 90))) &&
    (c :: rest).all (fun d => !(isWsC d) || decide (d = ' ')) &&
    noAdjWs (c :: rest) &&
    lastNotWs (c :: rest)

theorem dropTrailingWs_eq_reverse (m : List Char) :
    (m.reverse.dropWhile isWsC).reverse = dropTrailingWs m := by
  induction m with
  | nil => rfl
  | cons c rest ih =>
    rw [List.reverse_cons, List.dropWhile_append]
    by_cases hE : (rest.reverse.dropWhile isWsC).isEmpty = true
    · rw [if_pos hE]
      have hnil : dropTrailingWs rest = [] := by
        rw [← ih, List.isEmpty_iff.mp hE]
        rfl
      rw [dropTrailingWs, hnil]
      by_cases hc : isWsC c = true
      · simp [List.dropWhile, hc]
      · simp [List.dropWhile, hc]
    · rw [if_neg hE]
      have hnn : rest.reverse.dropWhile isWsC ≠ [] := by
        intro hh
        exact hE (by rw [hh]; rfl)
      have hnil : dropTrailingWs rest ≠ [] := by
        rw [← ih]
        intro hh
        exact hnn (by simpa using congrArg List.reverse hh)
      rw [List.reverse_append, dropTrailingWs]
      cases hd : dropTrailingWs rest with
      | nil => exact absurd hd hnil
      | cons x xs =>
        rw [ih, hd]
        rfl

theorem trimChars_eq (l : List Char) : trimChars l = jsTrimChars l := by
  unfold trimChars jsTrimChars
  exact dropTrailingWs_eq_reverse (l.dropWhile isWsC)

theorem headNotWs_dropWhile (l : List Char) :
    headNotWs (l.dropWhile isWsC) = true := by
  cases hd : l.dropWhile isWsC with
  | nil => rfl
  | cons c r =>
    have hh := List.head?_dropWhile_not isWsC l
    rw [hd] at hh
    simp only [List.head?] at hh
    simp [headNotWs, hh]

theorem headNotWs_dropTrailingWs (l : List Char) (h : headNotWs l = true) :
    headNotWs (dropTrailingWs l) = true := by
  cases l with
  | nil => rfl
  | cons c rest =>
    simp only [headNotWs] at h
    rw [dropTrailingWs]
    cases hd : dropTrailingWs rest with
    | nil =>
      by_cases hc : isWsC c = true
      · rw [if_pos hc]; rfl
      · rw [if_neg hc]; simpa [headNotWs] using h
    | cons x xs => simpa [headNotWs] using h

theorem getLast?_cons_cons_eq (a b : Char) (r : List Char) :
    (a :: b :: r).getLast? = (b :: r).getLast? := by
  simp [List.getLast?_eq_getLast]

theorem lastNotWs_cons_cons (a b : Char) (r : List Char) :
    lastNotWs (a :: b :: r) = lastNotWs (b :: r) := by
  unfold lastNotWs
  rw [getLast?_cons_cons_eq]

theorem lastNotWs_singleton (a : Char) : lastNotWs [a] = !(isWsC a) := by
  simp [lastNotWs, List.getLast?]

theorem lastNotWs_dropTrailingWs (l : List Char) :
    lastNotWs (dropTrailingWs l) = true := by
  induction l with
  | nil => rfl
  | cons c rest ih =>
    rw [dropTrailingWs]
    cases hd : dropTrailingWs rest with
    | nil =>
      by_cases hc : isWsC c = true
      · rw [if_pos hc]; rfl
      · rw [if_neg hc, lastNotWs_singleton]
        simp [hc]
    | cons x xs =>
      rw [lastNotWs_cons_cons]
      rw [hd] at ih
      exact ih

theorem collapse_ws_space (l : List Char) :
    ((collapseWs l).all (fun d => !(isWsC d) || decide (d = ' '))) = true ∧
    ((collapseAfterWs l).all (fun d => !(isWsC d) || decide (d = ' '))) =
      true := by
  induction l with
  | nil => exact ⟨rfl, rfl⟩
  | cons c rest ih =>
    constructor
    · rw [collapseWs]
      split_ifs with hw
      · rw [List.all_cons, ih.2]
        simp
      · rw [List.all_cons, ih.1]
        simp [hw]
    · rw [collapseAfterWs]
      split_ifs with hw
      · exact ih.2
      · rw [List.all_cons, ih.1]
        simp [hw]

theorem noAdjWs_cons (a : Char) (t : List Char) :
    noAdjWs (a :: t) = ((!(isWsC a) || headNotWs t) && noAdjWs t) := by
  cases t with
  | nil => simp [noAdjWs, headNotWs]
  | cons b r => simp [noAdjWs, headNotWs]

theorem headNotWs_collapse (l : List Char) (h : headNotWs l = true) :
    headNotWs (collapseWs l) = true := by
  cases l with
  | nil => rfl
  | cons c rest =>
    simp only [headNotWs] at h
    rw [collapseWs, if_neg (by simpa using h)]
    simpa [headNotWs] using h

theorem collapse_noAdj (l : List Char) :
    noAdjWs (collapseWs l) = true ∧
    (noAdjWs (collapseAfterWs l) = true ∧
      headNotWs (collapseAfterWs l) = true) := by
  induction l with
  | nil => exact ⟨rfl, rfl, rfl⟩
  | cons c rest ih =>
    refine ⟨?_, ?_, ?_⟩
    · rw [collapseWs]
      split_ifs with hw
      · rw [noAdjWs_cons, ih.2.1, ih.2.2]
        simp
      · rw [noAdjWs_cons, ih.1]
        simp [hw]
    · rw [collapseAfterWs]
      split_ifs with hw
      · exact ih.2.1
      · rw [noAdjWs_cons, ih.1]
        simp [hw]
    · rw [collapseAfterWs]
      split_ifs with hw
      · exact ih.2.2
      · simp [headNotWs, hw]

theorem lastNotWs_cons_of_ne (a : Char) (t : List Char) (h : t ≠ []) :
    lastNotWs (a :: t) = lastNotWs t := by
  cases t with
  | nil => exact absurd rfl h
  | cons b r => exact lastNotWs_cons_cons a b r

theorem collapse_last (l : List Char) (h : lastNotWs l = true) :
    (lastNotWs (collapseWs l) = true ∧ (l ≠ [] → collapseWs l ≠ [])) ∧
    (lastNotWs (collapseAfterWs l) = true ∧
      (l ≠ [] → collapseAfterWs l ≠ [])) := by
  induction l with
  | nil => exact ⟨⟨rfl, fun hh => absurd rfl hh⟩, ⟨rfl, fun hh => absurd rfl hh⟩⟩
  | cons c rest ih =>
    by_cases hr : rest = []
    · subst hr
      have hc : isWsC c = false := by
        have := h
        rw [lastNotWs_singleton] at this
        simpa using this
      constructor
      · constructor
        · rw [collapseWs, if_neg (by simp [hc])]
          show lastNotWs [c] = true
          rw [lastNotWs_singleton, hc]
          rfl
        · intro _
          rw [collapseWs, if_neg (by simp [hc])]
          simp
      · constructor
        · rw [collapseAfterWs, if_neg (by simp [hc])]
          show lastNotWs [c] = true
          rw [lastNotWs_singleton, hc]
          rfl
        · intro _
          rw [collapseAfterWs, if_neg (by simp [hc])]
          simp
    · have hrest : lastNotWs rest = true := by
        rw [lastNotWs_cons_of_ne c rest hr] at h
        exact h
      have ihr := ih hrest
      constructor
      · constructor
        · rw [collapseWs]
          split_ifs with hw
          · rw [lastNotWs_cons_of_ne ' ' _ (ihr.2.2 hr)]
            exact ihr.2.1
          · by_cases hcw : collapseWs rest = []
            · rw [hcw, lastNotWs_singleton]
              simpa using hw
            · rw [lastNotWs_cons_of_ne c _ hcw]
              exact ihr.1.1
        · intro _
          rw [collapseWs]
          split_ifs with hw <;> simp
      · constructor
        · rw [collapseAfterWs]
          split_ifs with hw
          · exact ihr.2.1
          · by_cases hcw : collapseWs rest = []
            · rw [hcw, lastNotWs_singleton]
              simpa using hw
            · rw [lastNotWs_cons_of_ne c _ hcw]
              exact ihr.1.1
        · intro _
          rw [collapseAfterWs]
          split_ifs with hw
          · exact ihr.2.2 hr
          · simp

theorem isWsC_jsToUpperChar (c : Char) : isWsC (jsToUpperChar c) = isWsC c := by
  unfold isWsC
  rw [decide_eq_decide, toNat_jsToUpperChar]
  unfold wsProp
  split_ifs with h
  · omega
  · exact Iff.rfl

theorem jsUp_not_lower (c : Char) :
    decide (¬(97 ≤ (jsToUpperChar c).toNat ∧ (jsToUpperChar c).toNat ≤ 122)) =
      true := by
  rw [decide_eq_true_iff, toNat_jsToUpperChar]
  split_ifs with h <;> omega

theorem jsLow_not_upper (d : Char) :
    decide (¬(65 ≤ (jsToLowerChar d).toNat ∧ (jsToLowerChar d).toNat ≤ 90)) =
      true := by
  rw [decide_eq_true_iff, toNat_jsToLowerChar]
  split_ifs with h <;> omega

theorem jsLow_space (d : Char) (h1 : isWsC d = true → d = ' ')
    (hw : isWsC (jsToLowerChar d) = true) : jsToLowerChar d = ' ' := by
  rw [isWsC_jsToLowerChar] at hw
  rw [h1 hw]
  decide

theorem headNotWs_congr (l l' : List Char)
    (h : List.Forall₂ (fun a b => isWsC a = isWsC b) l l') :
    headNotWs l = headNotWs l' := by
  cases h with
  | nil => rfl
  | cons hab htail => simp [headNotWs, hab]

theorem noAdjWs_congr (l l' : List Char)
    (h : List.Forall₂ (fun a b => isWsC a = isWsC b) l l') :
    noAdjWs l = noAdjWs l' := by
  induction h with
  | nil => rfl
  | @cons a b t t' hab htail ih =>
    rw [noAdjWs_cons, noAdjWs_cons, hab, ih, headNotWs_congr t t' htail]

theorem lastNotWs_congr (l l' : List Char)
    (h : List.Forall₂ (fun a b => isWsC a = isWsC b) l l') :
    lastNotWs l = lastNotWs l' := by
  induction h with
  | nil => rfl
  | @cons a b t t' hab htail ih =>
    cases htail with
    | nil => rw [lastNotWs_singleton, lastNotWs_singleton, hab]
    | @cons x y r r' hxy hrr =>
      rw [lastNotWs_cons_cons, lastNotWs_cons_cons]
      exact ih

theorem forall₂_ws_map_jsLow (l : List Char) :
    List.Forall₂ (fun a b => isWsC a = isWsC b) l (l.map jsToLowerChar) := by
  induction l with
  | nil => exact List.Forall₂.nil
  | cons d r ih =>
    exact List.Forall₂.cons (isWsC_jsToLowerChar d).symm ih

/-- Every non-empty output of `normalizeName` is in the Title-Case
normal form: trimmed, internal whitespace collapsed to single spaces,
first character capitalized, the rest lowercased. -/
theorem isTitleForm_normalizeName (t : String) (h : normalizeName t ≠ "") :
    isTitleForm (normalizeName t) = true := by
  unfold normalizeName at h ⊢
  by_cases ht : t = ""
  · rw [if_pos ht] at h
    exact absurd rfl h
  · rw [if_neg ht] at h ⊢
    cases hcl : collapseWs (trimChars t.data) with
    | nil =>
      rw [hcl] at h
      exact absurd rfl h
    | cons c rest =>
      have htrimhead : headNotWs (trimChars t.data) = true := by
        rw [trimChars_eq]
        exact headNotWs_dropTrailingWs _ (headNotWs_dropWhile _)
      have htrimlast : lastNotWs (trimChars t.data) = true := by
        rw [trimChars_eq]
        exact lastNotWs_dropTrailingWs _
      have hhead : isWsC c = false := by
        have hh := headNotWs_collapse _ htrimhead
        rw [hcl] at hh
        simpa [headNotWs] using hh
      have hspace := (collapse_ws_space (trimChars t.data)).1
      rw [hcl] at hspace
      have hnadj := (collapse_noAdj (trimChars t.data)).1
      rw [hcl] at hnadj
      have hlast := ((collapse_last (trimChars t.data) htrimlast).1).1
      rw [hcl] at hlast
      have hf2 : List.Forall₂ (fun a b => isWsC a = isWsC b) (c :: rest)
          (jsToUpperChar c :: rest.map jsToLowerChar) :=
        List.Forall₂.cons (isWsC_jsToUpperChar c).symm
          (forall₂_ws_map_jsLow rest)
      unfold isTitleForm
      simp only [Bool.and_eq_true]
      refine ⟨⟨⟨⟨⟨?_, ?_⟩, ?_⟩, ?_⟩, ?_⟩, ?_⟩
      · rw [isWsC_jsToUpperChar, hhead]
        rfl
      · exact jsUp_not_lower c
      · rw [List.all_map]
        apply List.all_eq_true.mpr
        intro d _
        exact jsLow_not_upper d
      · apply List.all_eq_true.mpr
        intro d hd
        rcases List.mem_cons.mp hd with hdc | hdr
        · subst hdc
          rw [isWsC_jsToUpperChar, hhead]
          rfl
        · rw [List.mem_map] at hdr
          obtain ⟨d0, hd0, rfl⟩ := hdr
          have hsp : isWsC d0 = true → d0 = ' ' := by
            intro hwd
            have := List.all_eq_true.mp hspace d0 (List.mem_cons_of_mem c hd0)
            simpa [hwd] using this
          by_cases hwd : isWsC (jsToLowerChar d0) = true
          · rw [jsLow_space d0 hsp hwd]
            simp
          · simp [hwd]
      · rw [← noAdjWs_congr _ _ hf2]
        exact hnadj
      · rw [← lastNotWs_congr _ _ hf2]
        exact hlast

theorem find?_append_none {α : Type} (p : α → Bool) (l₁ l₂ : List α)
    (h : l₁.find? p = none) : (l₁ ++ l₂).find? p = l₂.find? p := by
  induction l₁ with
  | nil => rfl
  | cons a t ih =>
    have hx := List.find?_eq_none.mp h
    rw [List.cons_append,
      List.find?_cons_of_neg _ (hx a (List.mem_cons_self a t))]
    apply ih
    rw [List.find?_eq_none]
    intro x hxm
    exact hx x (List.mem_cons_of_mem a hxm)

theorem dedupGo_sublist (l : List String) :
    ∀ acc, (dedupGo acc l).Sublist (acc ++ l) := by
  induction l with
  | nil =>
    intro acc
    rw [dedupGo, List.append_nil]
  | cons n rest ih =>
    intro acc
    rw [dedupGo]
    split_ifs with hany
    · exact (ih acc).trans
        (List.Sublist.append_left (List.sublist_cons_self n rest) acc)
    · have h2 := ih (acc ++ [n])
      rw [List.append_assoc] at h2
      exact h2

theorem dedupGo_pairwise (l : List String) :
    ∀ acc, acc.Pairwise (fun a b => jsToLower a ≠ jsToLower b) →
      (dedupGo acc l).Pairwise (fun a b => jsToLower a ≠ jsToLower b) := by
  induction l with
  | nil =>
    intro acc hacc
    rw [dedupGo]
    exact hacc
  | cons n rest ih =>
    intro acc hacc
    rw [dedupGo]
    split_ifs with hany
    · exact ih acc hacc
    · apply ih
      rw [List.pairwise_append]
      refine ⟨hacc, List.pairwise_singleton _ _, ?_⟩
      intro a ha b hb
      rw [List.mem_singleton] at hb
      subst hb
      intro heq
      apply hany
      rw [List.any_eq_true]
      exact ⟨a, ha, by simp [heq]⟩

theorem dedupGo_find (names : List String) (l : List String) :
    ∀ (processed acc : List String),
      names = processed ++ l →
      (∀ s ∈ acc,
        names.find? (fun u => decide (jsToLower u = jsToLower s)) = some s) →
      (∀ u ∈ processed, ∃ m ∈ acc, jsToLower m = jsToLower u) →
      ∀ s ∈ dedupGo acc l,
        names.find? (fun u => decide (jsToLower u = jsToLower s)) = some s := by
  induction l with
  | nil =>
    intro processed acc hn hfind hcov s hs
    rw [dedupGo] at hs
    exact hfind s hs
  | cons n rest ih =>
    intro processed acc hn hfind hcov s hs
    rw [dedupGo] at hs
    split_ifs at hs with hany
    · refine ih (processed ++ [n]) acc ?_ hfind ?_ s hs
      · rw [List.append_assoc]
        exact hn
      · intro u hu
        rcases List.mem_append.mp hu with h1 | h2
        · exact hcov u h1
        · rw [List.mem_singleton] at h2
          subst h2
          rw [List.any_eq_true] at hany
          obtain ⟨m, hm, hmn⟩ := hany
          exact ⟨m, hm, by simpa using hmn⟩
    · refine ih (processed ++ [n]) (acc ++ [n]) ?_ ?_ ?_ s hs
      · rw [List.append_assoc]
        exact hn
      · intro s' hs'
        rcases List.mem_append.mp hs' with h1 | h2
        · exact hfind s' h1
        · rw [List.mem_singleton] at h2
          subst h2
          rw [hn]
          have hpnone : processed.find?
              (fun u => decide (jsToLower u = jsToLower s')) = none := by
            rw [List.find?_eq_none]
            intro u hu
            simp only [decide_eq_true_iff]
            intro heq
            obtain ⟨m, hm, hmu⟩ := hcov u hu
            apply hany
            rw [List.any_eq_true]
            exact ⟨m, hm, by simp [hmu, heq]⟩
          rw [find?_append_none _ _ _ hpnone]
          exact List.find?_cons_of_pos _ (by simp)
      · intro u hu
        rcases List.mem_append.mp hu with h1 | h2
        · obtain ⟨m, hm, hmu⟩ := hcov u h1
          exact ⟨m, List.mem_append_left _ hm, hmu⟩
        · rw [List.mem_singleton] at h2
          subst h2
          exact ⟨u, List.mem_append_right _ (by simp), rfl⟩

/-- C3: for every raw kid-list input, `parseKidsInput` returns at most
6 names; every returned name is non-empty and in trimmed Title-Case
normal form; the returned names are pairwise distinct
case-insensitively; they appear in the order of the underlying token
list (`kidsNames`); and each returned name is the first token of its
case-insensitive class, so duplicates are dropped keeping the first
occurrence. -/
theorem parseKidsInput_spec (raw : String) :
    (parseKidsInput raw).length ≤ 6 ∧
    (∀ s ∈ parseKidsInput raw, s ≠ "" ∧ isTitleForm s = true) ∧
    (parseKidsInput raw).Pairwise (fun a b => jsToLower a ≠ jsToLower b) ∧
    (parseKidsInput raw).Sublist (kidsNames raw) ∧
    (∀ s ∈ parseKidsInput raw,
      (kidsNames raw).find? (fun u => decide (jsToLower u = jsToLower s)) =
        some s) := by
  unfold parseKidsInput
  split_ifs with hraw
  · refine ⟨by simp, ?_, List.Pairwise.nil, List.nil_sublist _, ?_⟩
    · intro s hs
      cases hs
    · intro s hs
      cases hs
  · have hdsub : (dedupGo [] (kidsNames raw)).Sublist (kidsNames raw) := by
      have := dedupGo_sublist (kidsNames raw) []
      simpa using this
    refine ⟨?_, ?_, ?_, ?_, ?_⟩
    · exact List.length_take_le _ _
    · intro s hs
      have hs1 : s ∈ dedupGo [] (kidsNames raw) :=
        (List.take_sublist _ _).subset hs
      have hs2 : s ∈ kidsNames raw := hdsub.subset hs1
      unfold kidsNames at hs2
      have hpred := List.of_mem_filter hs2
      have hmem := List.mem_of_mem_filter hs2
      rw [List.mem_map] at hmem
      obtain ⟨tok, htok, rfl⟩ := hmem
      have hne : normalizeName ⟨tok⟩ ≠ "" := by simpa using hpred
      exact ⟨hne, isTitleForm_normalizeName _ hne⟩
    · exact List.Pairwise.sublist (List.take_sublist _ _)
        (dedupGo_pairwise (kidsNames raw) [] List.Pairwise.nil)
    · exact (List.take_sublist _ _).trans hdsub
    · intro s hs
      have hs1 : s ∈ dedupGo [] (kidsNames raw) :=
        (List.take_sublist _ _).subset hs
      exact dedupGo_find (kidsNames raw) (kidsNames raw) [] [] rfl
        (fun s' hs' => absurd hs' (List.not_mem_nil s'))
        (fun u hu => absurd hu (List.not_mem_nil u)) s hs1

/-- Witness for C3 at the concrete utterance
`"krish, ADITH and krish"`: the duplicate `krish` collapses into the
first occurrence and the names come back in Title Case. -/
theorem parseKidsInput_spec_witness :
    "Krish" ∈ parseKidsInput "krish, ADITH and krish" ∧
    ("Krish" ≠ "" ∧ isTitleForm "Krish" = true) :=
  ⟨by decide,
   (parseKidsInput_spec "krish, ADITH and krish").2.1 "Krish" (by decide)⟩

/-- The single bar of the concrete one-day, one-kid payload used to
witness the trend-payload claim. -/
def witnessBar : TrendBar :=
  { label := "x"
    labelOpacity := 1
    value := 2
    height := 200
    color := "#2F9E44"
    width := 18 }

/-- The single person block of the concrete payload used to witness
the trend-payload claim. -/
def witnessPerson : TrendPerson :=
  { name := "A", bars := [witnessBar] }

/-- Witness for C5 at a one-day, one-kid payload with constant total
2: the single bar scales to the full 200 height and stays in range. -/
theorem buildTrendPayload_heights_witness :
    (0 : Int) ≤ witnessBar.height ∧ witnessBar.height ≤ 200 :=
  ((buildTrendPayload_heights ["a"] ["x"] (fun _ _ => 2) ["A"] "T" "S"
      none none).1
    witnessPerson
    (by
      unfold witnessPerson witnessBar buildTrendPayload
      norm_num [round_eq, List.enum, MAX_BAR_HEIGHT])
    witnessBar (by decide)).2
